import Mathlib

/-!
Verification development for `scripts/analyze_positions.py` (chess960-explorer).

The script drives a pool of Stockfish subprocesses over a UCI-like text
protocol, parses `info` lines into evaluations, stores results in a shared
dict keyed by position id, and periodically dumps that dict to a JSON file.

We shallowly embed the pure cores of the script:
  * `_extract` / `_parse_info`   → `extract` / `parseInfo` (on `List Char`);
  * the `analyze` read loop      → `analyzeStep` / `analyzeRun`;
  * `_wait_for`                  → `waitForSteps` (fuel-indexed loop unrolling);
  * the `worker_thread` loop     → `runWorker` (per-job outcomes as data);
  * the startup queue population → `buildQueue`;
  * the checkpoint write         → `directWriteCrashStates`, a model of the
    file states reachable if the process crashes during
    `open(path, "w"); json.dump(...)` (open-for-write truncates, then the
    serialization is written left to right).

Python strings are modelled as `List Char`; `str.split()` as `splitWs`
(split on whitespace runs, dropping empties); `int(...)` as `pyInt`
(optional sign then decimal digits; Python's underscore-digit-grouping is
out of scope, no claim depends on it); float division `score/100` is
modelled exactly over `Rat`. Timestamps (`datetime.now()`) are omitted
from the stored record: no claim mentions them.
-/

namespace AnalyzePositions

abbrev Chars := List Char

/-- Character-level whitespace test (Python `str.split()` / `str.strip()`
split on Unicode whitespace; engine output is ASCII). -/
def isWs (c : Char) : Bool := c.isWhitespace

/-- Python `str.strip()`: drop whitespace from both ends. -/
def stripChars (s : Chars) : Chars :=
  ((s.dropWhile isWs).reverse.dropWhile isWs).reverse

/-- Does `s` begin with `pat`? -/
def leadsWith : Chars → Chars → Bool
  | [], _ => true
  | _ :: _, [] => false
  | p :: ps, c :: cs => p == c && leadsWith ps cs

/-- Python substring containment `pat in s`. -/
def occursIn (pat : Chars) : Chars → Bool
  | [] => pat.isEmpty
  | c :: cs => leadsWith pat (c :: cs) || occursIn pat cs

/-- Python `s.find(pat)`: index of the first occurrence, as an `Option`
(the caller turns `none` into `-1`). -/
def findSub (pat : Chars) : Chars → Option Nat
  | [] => if pat.isEmpty then some 0 else none
  | c :: cs =>
    if leadsWith pat (c :: cs) then some 0
    else (findSub pat cs).map (· + 1)

/-- Worker loop of Python `str.split()`: `cur` is the (reversed) token
being accumulated. -/
def splitWsGo (cur : Chars) : Chars → List Chars
  | [] => if cur.isEmpty then [] else [cur.reverse]
  | c :: cs =>
    if isWs c then
      if cur.isEmpty then splitWsGo [] cs else cur.reverse :: splitWsGo [] cs
    else splitWsGo (c :: cur) cs

/-- Python `str.split()` with no argument: split on whitespace runs,
no empty tokens. -/
def splitWs (s : Chars) : List Chars := splitWsGo [] s

/-- Python `list.index(key)` as an `Option` (`ValueError` ↦ `none`). -/
def idxOfKey (key : Chars) : List Chars → Option Nat
  | [] => none
  | t :: ts => if t = key then some 0 else (idxOfKey key ts).map (· + 1)

/-- Value of a nonempty all-digit string, else `none`. -/
def digitsVal (s : Chars) : Option Nat :=
  if s.isEmpty then none
  else if s.all (·.isDigit) then
    some (s.foldl (fun n c => 10 * n + (c.toNat - 48)) 0)
  else none

/-- Python `int(str)`: optional surrounding whitespace, optional sign,
decimal digits; anything else raises (↦ `none`). -/
def pyInt (s : Chars) : Option Int :=
  match stripChars s with
  | '-' :: ds => (digitsVal ds).map (fun n => -(n : Int))
  | '+' :: ds => (digitsVal ds).map (fun n => (n : Int))
  | ds => (digitsVal ds).map (fun n => (n : Int))

/-- Python `int(x)` where `x : Option str`: `int(None)` raises (↦ `none`). -/
def pyIntOpt (o : Option Chars) : Option Int := o.bind pyInt

/-- Python `x or default` for `x : Option str` (`None` and `""` are falsy). -/
def orDefault (o : Option Chars) (d : Chars) : Chars :=
  match o with
  | none => d
  | some s => if s.isEmpty then d else s

/-- `MULTI_PV = 3`: number of retained variant ranks (the spec's `K`). -/
def MULTI_PV : Nat := 3

/-- `StockfishWorker._extract(line, key)`: split the line into
whitespace-separated tokens, find `key` among them, return the next token;
any failure (`ValueError` from `index`, `IndexError` from `parts[idx+1]`)
yields `None`. -/
def extract (line key : Chars) : Option Chars :=
  let parts := splitWs line
  match idxOfKey key parts with
  | none => none
  | some i => parts[i + 1]?

/-- The spec's `ParsedInfoLine`: the dict built by `_parse_info`
(`mate` key present only on mate lines, hence an `Option`). -/
structure Parsed where
  depth : Int
  pvNum : Int
  moves : Chars
  eval : Rat
  mate : Option Int
deriving DecidableEq

def scoreCpPat : Chars := " score cp ".data
def scoreMatePat : Chars := " score mate ".data
def scoreCpKey : Chars := "score cp".data
def scoreMateKey : Chars := "score mate".data
def pvPat : Chars := " pv ".data

/-- `moves = line[line.find(" pv ") + 4:].strip()`; `find` yields `-1`
when absent, so the slice then starts at index `3`. -/
def pvMoves (line : Chars) : Chars :=
  let pvStart : Nat :=
    match findSub pvPat line with
    | some i => i + 4
    | none => 3
  stripChars (line.drop pvStart)

/-- `StockfishWorker._parse_info(line)`. The whole body is wrapped in a
bare `try/except` returning `None`, so every failing intermediate step
(e.g. `int(None)` when `_extract` found nothing) yields `none`. -/
def parseInfo (line : Chars) : Option Parsed :=
  match pyIntOpt (extract line "depth".data) with
  | none => none
  | some depth =>
    match pyInt (orDefault (extract line "multipv".data) "1".data) with
    | none => none
    | some pvNum =>
      if occursIn scoreCpPat line then
        match pyIntOpt (extract line scoreCpKey) with
        | none => none
        | some v =>
          some { depth := depth, pvNum := pvNum, moves := pvMoves line,
                 eval := (v : Rat) / 100, mate := none }
      else if occursIn scoreMatePat line then
        match pyIntOpt (extract line scoreMateKey) with
        | none => none
        | some v =>
          some { depth := depth, pvNum := pvNum, moves := pvMoves line,
                 eval := if v > 0 then (9999 : Rat) else (-9999 : Rat),
                 mate := some v }
      else none

/-- A concrete, fully well-formed `info` line with a centipawn score. -/
def cpLine : Chars :=
  "info depth 12 seldepth 16 multipv 1 score cp 34 nodes 1000 nps 100 time 10 pv e2e4 e7e5".data

/-- A concrete, fully well-formed `info` line with a mate score. -/
def mateLine : Chars :=
  "info depth 20 multipv 1 score mate 3 pv d2d4 g7g6".data

example : occursIn scoreCpPat cpLine = true := by decide
example : extract cpLine scoreCpKey = none := by decide
example : parseInfo cpLine = none := by decide
example : parseInfo mateLine = none := by decide
example : extract cpLine "depth".data = some "12".data := by decide

/-! ## Association-list model of Python dicts

Python dict assignment `d[k] = v` replaces the value of an existing key in
place and appends a fresh key; lookup `d[k]` / `k in d` scans for the key.
Only key membership and per-key values matter to the claims. -/

/-- Dict assignment `d[k] = v`. -/
def assocSet {α β : Type} [DecidableEq α] : List (α × β) → α → β → List (α × β)
  | [], k, v => [(k, v)]
  | (k', v') :: rest, k, v =>
    if k' = k then (k, v) :: rest else (k', v') :: assocSet rest k v

/-- Dict lookup `d.get(k)`. -/
def assocGet {α β : Type} [DecidableEq α] : List (α × β) → α → Option β
  | [], _ => none
  | (k', v') :: rest, k => if k' = k then some v' else assocGet rest k

/-! ## The `analyze` read loop -/

/-- The `lines` dict of `analyze`: variant rank ↦ retained parsed line. -/
abbrev RankMap := List (Int × Parsed)

/-- One emitted variant: the dict appended to `result` on the terminal
line (`l.get("mate")` is `None` for centipawn lines). -/
structure Variant where
  moves : Chars
  eval : Rat
  mate : Option Int
deriving DecidableEq

def toVariant (l : Parsed) : Variant :=
  { moves := l.moves, eval := l.eval, mate := l.mate }

/-- Return value of `analyze`: `{"pvs": result, "depth": final_depth}`. -/
structure AnalysisResult where
  pvs : List Variant
  depth : Int
deriving DecidableEq

/-- Retention update (lines 78–79 of the script):
`if pv_num not in lines or lines[pv_num]["depth"] < parsed["depth"]:
lines[pv_num] = parsed`. -/
def retainStep (m : RankMap) (p : Parsed) : RankMap :=
  match assocGet m p.pvNum with
  | none => assocSet m p.pvNum p
  | some cur => if cur.depth < p.depth then assocSet m p.pvNum p else m

/-- Final-depth update (lines 80–81):
`if parsed["depth"] > final_depth: final_depth = parsed["depth"]`. -/
def depthStep (d : Int) (p : Parsed) : Int :=
  if p.depth > d then p.depth else d

def gatePat1 : Chars := "info depth".data
def gatePat2 : Chars := " pv ".data

/-- The guarded parse of one loop iteration: the line is considered only
if it passes `"info depth" in line and " pv " in line`, and only a
non-`None` parse updates the state. -/
def gateParse (line : Chars) : Option Parsed :=
  if occursIn gatePat1 line && occursIn gatePat2 line then parseInfo line
  else none

/-- One iteration of the `analyze` read loop on state
`(lines, final_depth)` (the line is already `strip`ped by the read). -/
def analyzeStep (st : RankMap × Int) (line : Chars) : RankMap × Int :=
  match gateParse line with
  | some p => (retainStep st.1 p, depthStep st.2 p)
  | none => st

/-- Terminal-line emission (lines 83–91): `for i in range(1, MULTI_PV+1):
if i in lines: result.append(...)`. -/
def emitVariants (m : RankMap) : List Variant :=
  (List.range' 1 MULTI_PV).foldl
    (fun acc i =>
      match assocGet m (Int.ofNat i) with
      | some l => acc ++ [toVariant l]
      | none => acc)
    []

/-- `analyze`, as a function of the (stripped) output lines that precede
the `bestmove` terminal line. -/
def analyzeRun (lines : List Chars) : AnalysisResult :=
  let st := lines.foldl analyzeStep ([], 0)
  { pvs := emitVariants st.1, depth := st.2 }

/-- The successfully parsed info lines of a session, in order. -/
def parsedLines (lines : List Chars) : List Parsed :=
  lines.filterMap gateParse

/-- The per-rank retention fold over a sequence of parsed lines. -/
def retainFold (ps : List Parsed) : RankMap := ps.foldl retainStep []

/-- The final-depth fold over a sequence of parsed lines. -/
def finalDepthFold (ps : List Parsed) : Int := ps.foldl depthStep 0

/-! ## `_wait_for`: the handshake acknowledgment loop

`_wait_for(target)` loops `line = stdout.readline().strip(); if line ==
target: return`. After end-of-input, `readline()` returns `""` on every
call. We index the loop by the number of iterations executed (`fuel`) and
by the remaining stream contents; `stillWaiting` means the loop has
neither returned nor raised after that many iterations. `protocolError`
is the spec's error outcome; the code contains no `raise`, so the
embedding never produces it. -/

inductive HandshakeOutcome where
  | ack
  | protocolError
  | stillWaiting
deriving DecidableEq

def waitForSteps (target : Chars) : Nat → List Chars → HandshakeOutcome
  | 0, _ => .stillWaiting
  | n + 1, [] =>
    if stripChars [] = target then .ack else waitForSteps target n []
  | n + 1, l :: ls =>
    if stripChars l = target then .ack else waitForSteps target n ls

/-! ## Result store, queue population, worker loop, checkpoint write -/

/-- A Python dict key as used by this script: the JSON-loaded results
dict has string keys, the in-run dict is keyed by raw (int) position
ids, and the queue-population filter checks both spellings. -/
inductive PKey where
  | s (v : Chars)
  | i (v : Int)
deriving DecidableEq

/-- The value stored per position id by `worker_thread` (the
`analyzedAt` timestamp is omitted: no claim mentions it). -/
structure StoredResult where
  fen : Chars
  depth : Int
  pvs : List Variant
deriving DecidableEq

/-- The shared `results` dict. -/
abbrev Store := List (PKey × StoredResult)

/-- Python `str(n)` for an int. -/
def intToChars (n : Int) : Chars := (toString n).data

/-- The queue-population membership test (line 198):
`str(pos["id"]) in results or pos["id"] in results`. -/
def keyPresent (store : Store) (id : Int) : Bool :=
  store.any (fun kv => kv.1 == PKey.s (intToChars id)) ||
    store.any (fun kv => kv.1 == PKey.i id)

/-- One input record (`{id, fen}` from the positions file). -/
structure Pos where
  id : Int
  fen : Chars
deriving DecidableEq

/-- Startup queue population (lines 196–199): enqueue `(id, fen)` for
every position whose id is not already a key of the loaded results. -/
def buildQueue (positions : List Pos) (results : Store) : List (Int × Chars) :=
  (positions.filter (fun p => !(keyPresent results p.id))).map
    (fun p => (p.id, p.fen))

/-- The upsert `results[pos_id] = {...}` performed by `worker_thread`
after `analyze` returns. -/
def workerRecord (store : Store) (id : Int) (fen : Chars)
    (r : AnalysisResult) : Store :=
  assocSet store (PKey.i id) { fen := fen, depth := r.depth, pvs := r.pvs }

/-- `json.dump` then `json.load` of the results dict: JSON object keys
are strings, so int keys come back as their decimal spelling. -/
def jsonRoundTrip (store : Store) : Store :=
  store.map (fun kv =>
    match kv.1 with
    | PKey.i n => (PKey.s (intToChars n), kv.2)
    | PKey.s v => (PKey.s v, kv.2))

/-- Outcome of `worker.analyze(fen)` for one job: a result, or an
uncaught exception (broken pipe to a crashed engine, protocol failure). -/
inductive JobRun where
  | ok (r : AnalysisResult)
  | fails
deriving DecidableEq

/-- The `worker_thread` loop body, driven by the queued jobs and each
job's outcome. The only `try/except` in the loop guards `task_queue.get`
(for `queue.Empty`); nothing guards `worker.analyze`, so a failing job
ends the loop with the exception escaping (second component `true`). -/
def runWorker : List (Int × Chars × JobRun) → Store → Store × Bool
  | [], store => (store, false)
  | (id, fen, JobRun.ok r) :: rest, store =>
    runWorker rest (workerRecord store id fen r)
  | (_, _, JobRun.fails) :: _, store => (store, true)

/-- File states reachable if the process crashes during
`with open(OUTPUT_PATH, "w") as f: json.dump(results, f, indent=2)`
(lines 239–240 and 249–250): the old content (crash before the `open`
takes effect), or any prefix of the new serialization (the `open`
truncates, then the bytes are written left to right). There is no
temporary file and no rename in the script. -/
def directWriteCrashStates (old new : Chars) : List Chars :=
  old :: (List.range (new.length + 1)).map (fun k => new.take k)

/-! ## Claim C1 — checkpoint persistence atomicity -/

/-- Claim C1 as stated is false: both saves write directly to the durable
path, so the crash state reached just after a partial write is neither
the fully-old nor the fully-new content. Concretely, with old content
`old` and new serialization `new`, the one-character partial write of
`new` is a reachable crash state distinct from both. -/
theorem checkpoint_atomicity_cex :
    ['n'] ∈ directWriteCrashStates ['o', 'l', 'd'] ['n', 'e', 'w'] ∧
      ['n'] ≠ ['o', 'l', 'd'] ∧ ['n'] ≠ ['n', 'e', 'w'] := by
  decide

/-- Claim C1 (amended): checkpoint persistence is not atomic. The persist
operation opens the durable file for writing in place (truncating it) and
writes the new serialization directly — there is no temporary file and no
replace step — so under a crash at any point the durable content is
either the fully-old content or some prefix of the new content; in
particular the empty file (the instant after truncation) is reachable and
differs from the old content. -/
theorem checkpoint_direct_write_prefix (old new : Chars) (h : old ≠ []) :
    ([] ∈ directWriteCrashStates old new ∧ ([] : Chars) ≠ old) ∧
      ∀ s ∈ directWriteCrashStates old new,
        s = old ∨ ∃ k, k ≤ new.length ∧ s = new.take k := by
  refine ⟨⟨?_, fun he => h he.symm⟩, ?_⟩
  · have h0 : (0 : ℕ) ∈ List.range (new.length + 1) :=
      List.mem_range.mpr (Nat.succ_pos _)
    exact List.mem_cons_of_mem _ (List.mem_map.mpr ⟨0, h0, rfl⟩)
  · intro s hs
    rcases List.mem_cons.mp hs with h1 | h1
    · exact Or.inl h1
    · rcases List.mem_map.mp h1 with ⟨k, hk, rfl⟩
      exact Or.inr ⟨k, Nat.lt_succ_iff.mp (List.mem_range.mp hk), rfl⟩

/-- Witness for `checkpoint_direct_write_prefix` at concrete contents. -/
theorem checkpoint_direct_write_prefix_wit :
    (([] : Chars) ∈ directWriteCrashStates ['o', 'l', 'd'] ['n', 'e', 'w'] ∧
        ([] : Chars) ≠ ['o', 'l', 'd']) ∧
      ∀ s ∈ directWriteCrashStates ['o', 'l', 'd'] ['n', 'e', 'w'],
        s = ['o', 'l', 'd'] ∨
          ∃ k, k ≤ (['n', 'e', 'w'] : Chars).length ∧
            s = (['n', 'e', 'w'] : Chars).take k :=
  checkpoint_direct_write_prefix ['o', 'l', 'd'] ['n', 'e', 'w'] (by decide)

/-! ## Claim C2 — score extraction

Supporting general fact: tokens produced by `str.split()` never contain
whitespace, so `parts.index("score cp")` (a key with a space) always
fails, and `_parse_info` returns `None` on every line whatsoever. -/

theorem splitWsGo_no_ws (s : Chars) (cur : Chars)
    (hcur : ∀ c ∈ cur, isWs c = false) :
    ∀ t ∈ splitWsGo cur s, ∀ c ∈ t, isWs c = false := by
  induction s generalizing cur with
  | nil =>
    intro t ht c hc
    unfold splitWsGo at ht
    by_cases h : cur.isEmpty
    · simp [h] at ht
    · rw [if_neg h] at ht
      rcases List.mem_singleton.mp ht with rfl
      exact hcur c (List.mem_reverse.mp hc)
  | cons a s ih =>
    intro t ht c hc
    unfold splitWsGo at ht
    by_cases ha : isWs a
    · rw [if_pos ha] at ht
      by_cases hce : cur.isEmpty
      · rw [if_pos hce] at ht
        exact ih [] (by simp) t ht c hc
      · rw [if_neg hce] at ht
        rcases List.mem_cons.mp ht with rfl | ht
        · exact hcur c (List.mem_reverse.mp hc)
        · exact ih [] (by simp) t ht c hc
    · rw [if_neg ha] at ht
      refine ih (a :: cur) ?_ t ht c hc
      intro x hx
      rcases List.mem_cons.mp hx with rfl | hx
      · exact Bool.not_eq_true _ ▸ eq_false_of_ne_true ha
      · exact hcur x hx

theorem idxOfKey_ws_none (key : Chars) (c : Char) (hc : c ∈ key)
    (hw : isWs c = true) (parts : List Chars)
    (hparts : ∀ t ∈ parts, ∀ d ∈ t, isWs d = false) :
    idxOfKey key parts = none := by
  induction parts with
  | nil => rfl
  | cons t ts ih =>
    unfold idxOfKey
    have hne : t ≠ key := by
      intro he
      subst he
      rw [hparts t (List.mem_cons_self t ts) c hc] at hw
      cases hw
    rw [if_neg hne,
      ih (fun t' ht' => hparts t' (List.mem_cons_of_mem _ ht'))]
    rfl

theorem extract_spaced_key_none (line key : Chars) (c : Char) (hc : c ∈ key)
    (hw : isWs c = true) : extract line key = none := by
  have h := idxOfKey_ws_none key c hc hw (splitWs line)
    (splitWsGo_no_ws line [] (by simp))
  simp only [extract, h]

/-- The whole parse layer is dead: `_parse_info` returns `None` on every
line. If the line carries no score marker it falls out at the
`if not score_type` check; if it does carry one, `_extract` is called
with the two-word key `"score cp"` / `"score mate"`, which can never
equal a whitespace-split token, so `int(None)` raises and the bare
`except` yields `None`. -/
theorem parseInfo_eq_none (line : Chars) : parseInfo line = none := by
  unfold parseInfo
  cases pyIntOpt (extract line "depth".data) with
  | none => rfl
  | some d =>
    cases pyInt (orDefault (extract line "multipv".data) "1".data) with
    | none => rfl
    | some pv =>
      have hcp : extract line scoreCpKey = none :=
        extract_spaced_key_none line scoreCpKey ' ' (by decide) (by decide)
      have hm : extract line scoreMateKey = none :=
        extract_spaced_key_none line scoreMateKey ' ' (by decide) (by decide)
      by_cases h1 : occursIn scoreCpPat line
      · simp [h1, hcp, pyIntOpt]
      · by_cases h2 : occursIn scoreMatePat line
        · simp [h1, h2, hm, pyIntOpt]
        · simp [h1, h2]

/-- Claim C2 is right about the intended behavior and the code is wrong:
`_extract` splits the line into whitespace-separated tokens and looks the
key up with `parts.index(key)`, but the keys `"score cp"` and
`"score mate"` contain a space and so can never equal a token. `_extract`
returns `None`, `int(None)` raises, and the bare `except` makes
`_parse_info` return `None` — for every line carrying a score. On the
concrete lines below the claim expects eval `0.34` resp. display eval
`9999`; the code produces no parse at all. -/
theorem parse_info_drops_scored_lines :
    occursIn scoreCpPat cpLine = true ∧
      occursIn scoreMatePat mateLine = true ∧
      extract cpLine scoreCpKey = none ∧
      extract mateLine scoreMateKey = none ∧
      parseInfo cpLine = none ∧
      parseInfo mateLine = none := by
  decide

/-! ## Claim C3 — handshake on end-of-input -/

/-- Claim C3 as stated is false: with the output stream already ended
(readline returns the empty line forever), 100 loop iterations of
`_wait_for("uciok")` later the handshake has neither returned nor raised
any error — there is no `ProtocolError` in the code and no exit on
end-of-input. -/
theorem wait_for_eof_cex :
    waitForSteps "uciok".data 100 [] = HandshakeOutcome.stillWaiting := by
  decide

/-- Claim C3 (amended): if the acknowledgment token never appears on the
stream — in particular when the stream ends, after which every read
yields the empty line — `_wait_for` spins forever: after any number of
iterations it is still waiting, and it never produces `ProtocolError`
(the code defines no such error and the loop has no exit on
end-of-input). `start()` therefore blocks forever rather than failing. -/
theorem wait_for_missing_ack_spins (target : Chars) (stream : List Chars)
    (fuel : Nat) (h1 : target ∉ stream.map stripChars) (h2 : target ≠ []) :
    waitForSteps target fuel stream = HandshakeOutcome.stillWaiting := by
  induction fuel generalizing stream with
  | zero => rfl
  | succ n ih =>
    cases stream with
    | nil =>
      have hne : stripChars [] ≠ target := fun he => h2 (he.symm.trans rfl)
      simp only [waitForSteps, if_neg hne]
      exact ih [] (by simp)
    | cons l ls =>
      simp only [List.map_cons, List.mem_cons, not_or] at h1
      have hne : stripChars l ≠ target := fun he => h1.1 he.symm
      simp only [waitForSteps, if_neg hne]
      exact ih ls h1.2

/-- Witness for `wait_for_missing_ack_spins`: a stream that ends after
one junk line, with the `uciok` acknowledgment never arriving. -/
theorem wait_for_missing_ack_spins_wit :
    waitForSteps "uciok".data 7 ["id name Stockfish".data] =
      HandshakeOutcome.stillWaiting :=
  wait_for_missing_ack_spins "uciok".data ["id name Stockfish".data] 7
    (by decide) (by decide)

/-! ## Claim C4 — per-job failure handling -/

/-- Claim C4 as stated is false: with job 1 failing and job 2 queued
behind it, the worker records neither job (in particular it does not
continue to job 2) and terminates with the exception escaping
(`worker_thread` has no `try/except` around `worker.analyze`). -/
theorem worker_failure_cex :
    runWorker
        [(1, "f1".data, JobRun.fails),
         (2, "f2".data, JobRun.ok ⟨[], 0⟩)] [] =
      ([], true) := by
  decide

/-- Claim C4 (amended): a per-job failure is not caught at the worker
level. The failed job's id is indeed absent from the ResultStore, but the
exception propagates out of the worker loop: the worker terminates
immediately, the results recorded are exactly those of the jobs completed
before the failure, and no later queue item is processed. -/
theorem runWorker_stops_at_first_failure
    (pre : List (Int × Chars × AnalysisResult)) (bid : Int) (bfen : Chars)
    (rest : List (Int × Chars × JobRun)) (store : Store) :
    runWorker
        (pre.map (fun j => (j.1, j.2.1, JobRun.ok j.2.2)) ++
          (bid, bfen, JobRun.fails) :: rest) store =
      (pre.foldl (fun s j => workerRecord s j.1 j.2.1 j.2.2) store, true) := by
  induction pre generalizing store with
  | nil => rfl
  | cons j pre ih =>
    simpa only [List.map_cons, List.cons_append, runWorker, List.foldl_cons]
      using ih (workerRecord store j.1 j.2.1 j.2.2)

/-! ## Claim C5 — per-rank retention

Helper view of the retention fold restricted to a single rank: `keep1` is
the effect of one `retainStep` on the slot of the incoming line's rank,
and `pickDeeper`/`pickFold` compute the retained line of a nonempty
same-rank sequence. -/

def pickDeeper (c q : Parsed) : Parsed := if c.depth < q.depth then q else c

def pickFold (c : Parsed) (ps : List Parsed) : Parsed := ps.foldl pickDeeper c

def keep1 (o : Option Parsed) (q : Parsed) : Option Parsed :=
  match o with
  | none => some q
  | some c => some (pickDeeper c q)

theorem assocGet_assocSet_self {α β : Type} [DecidableEq α]
    (m : List (α × β)) (k : α) (v : β) :
    assocGet (assocSet m k v) k = some v := by
  induction m with
  | nil => simp [assocSet, assocGet]
  | cons kv rest ih =>
    obtain ⟨k', v'⟩ := kv
    by_cases h : k' = k
    · simp [assocSet, assocGet, h]
    · simp [assocSet, assocGet, h, ih]

theorem retainStep_assocGet (m : RankMap) (p : Parsed) :
    assocGet (retainStep m p) p.pvNum = keep1 (assocGet m p.pvNum) p := by
  unfold retainStep keep1
  cases h : assocGet m p.pvNum with
  | none => simp [assocGet_assocSet_self]
  | some cur =>
    by_cases hd : cur.depth < p.depth
    · simp [hd, assocGet_assocSet_self, pickDeeper]
    · simp [hd, h, pickDeeper]

theorem foldl_retainStep_assocGet (ps : List Parsed) (m : RankMap) (r : Int)
    (h : ∀ p ∈ ps, p.pvNum = r) :
    assocGet (ps.foldl retainStep m) r = ps.foldl keep1 (assocGet m r) := by
  induction ps generalizing m with
  | nil => rfl
  | cons p ps ih =>
    have hp : p.pvNum = r := h p (List.mem_cons_self p ps)
    have hrest : ∀ q ∈ ps, q.pvNum = r := fun q hq => h q (List.mem_cons_of_mem _ hq)
    simp only [List.foldl_cons]
    rw [ih (retainStep m p) hrest, ← hp, retainStep_assocGet]

theorem foldl_keep1_some (ps : List Parsed) (c : Parsed) :
    ps.foldl keep1 (some c) = some (pickFold c ps) := by
  induction ps generalizing c with
  | nil => rfl
  | cons q ps ih => simp only [List.foldl_cons, keep1, pickFold] at ih ⊢; exact ih _

theorem pickFold_depth_ge (c : Parsed) (ps : List Parsed) :
    c.depth ≤ (pickFold c ps).depth := by
  induction ps generalizing c with
  | nil => exact le_refl _
  | cons q ps ih =>
    refine le_trans ?_ (ih (pickDeeper c q))
    unfold pickDeeper
    by_cases h : c.depth < q.depth
    · simp [h]; exact le_of_lt h
    · simp [h]

/-- The retained line of a nonempty same-rank sequence is the leftmost
line of maximal depth: everything before it is strictly shallower,
everything after it is no deeper. -/
theorem pickFold_decomp (ps : List Parsed) (c : Parsed) :
    ∃ l1 l2, c :: ps = l1 ++ pickFold c ps :: l2 ∧
      (∀ q ∈ l1, q.depth < (pickFold c ps).depth) ∧
      (∀ q ∈ l2, q.depth ≤ (pickFold c ps).depth) := by
  induction ps generalizing c with
  | nil => exact ⟨[], [], rfl, by simp, by simp⟩
  | cons q ps ih =>
    by_cases hcq : c.depth < q.depth
    · -- the new head is shallower than `q`: the pick over `q :: ps` wins
      have hpd : pickFold c (q :: ps) = pickFold q ps := by
        show pickFold (pickDeeper c q) ps = pickFold q ps
        rw [pickDeeper, if_pos hcq]
      rw [hpd]
      obtain ⟨l1, l2, heq, h1, h2⟩ := ih q
      refine ⟨c :: l1, l2, ?_, ?_, h2⟩
      · exact congrArg (fun t => c :: t) heq
      · intro x hx
        rcases List.mem_cons.mp hx with rfl | hx
        · exact lt_of_lt_of_le hcq (pickFold_depth_ge q ps)
        · exact h1 x hx
    · -- `q` is no deeper than the retained head: `q` is skipped
      have hqc : q.depth ≤ c.depth := le_of_not_lt hcq
      have hpd : pickFold c (q :: ps) = pickFold c ps := by
        show pickFold (pickDeeper c q) ps = pickFold c ps
        rw [pickDeeper, if_neg hcq]
      rw [hpd]
      obtain ⟨l1, l2, heq, h1, h2⟩ := ih c
      cases l1 with
      | nil =>
        -- the retained line is `c` itself; `q` slots in just after it
        simp only [List.nil_append] at heq
        have hc : c = pickFold c ps := ((List.cons.injEq _ _ _ _).mp heq).1
        have hl2 : ps = l2 := ((List.cons.injEq _ _ _ _).mp heq).2
        subst hl2
        refine ⟨[], q :: ps, ?_, by simp, ?_⟩
        · rw [List.nil_append, ← hc]
        · intro x hx
          rcases List.mem_cons.mp hx with rfl | hx
          · exact le_trans hqc (le_of_eq (congrArg Parsed.depth hc))
          · exact h2 x hx
      | cons a l1' =>
        simp only [List.cons_append] at heq
        have ha : c = a := ((List.cons.injEq _ _ _ _).mp heq).1
        have hrest : ps = l1' ++ pickFold c ps :: l2 :=
          ((List.cons.injEq _ _ _ _).mp heq).2
        have hcd : c.depth < (pickFold c ps).depth :=
          ha ▸ h1 a (List.mem_cons_self a l1')
        refine ⟨c :: q :: l1', l2, ?_, ?_, h2⟩
        · exact congrArg (fun t => c :: q :: t) hrest
        · intro x hx
          rcases List.mem_cons.mp hx with rfl | hx
          · exact hcd
          rcases List.mem_cons.mp hx with rfl | hx
          · exact lt_of_le_of_lt hqc hcd
          · exact h1 x (List.mem_cons_of_mem a hx)

/-- Claim C5 as stated is false on ties: on two same-rank lines of equal
depth, the retention condition `lines[pv_num]["depth"] < parsed["depth"]`
is false, so the earlier line is kept, not the most recently seen one. -/
theorem retention_tie_cex :
    assocGet
        (retainFold
          [{ depth := 10, pvNum := 1, moves := "e2e4".data, eval := 0,
             mate := none },
           { depth := 10, pvNum := 1, moves := "d2d4".data, eval := 1,
             mate := none }]) 1 =
      some { depth := 10, pvNum := 1, moves := "e2e4".data, eval := 0,
             mate := none } := by
  decide

/-- Claim C5 (amended): for every nonempty sequence of parsed info lines
of the same variant rank, the retained line for that rank is the earliest
line attaining the maximum depth seen: every line before it is strictly
shallower (so a line strictly deeper than the retained one replaces it)
and every line after it is no deeper (so later lines of lower or equal
depth — including ties — are ignored and the earlier line is kept). -/
theorem retention_leftmost_max (r : Int) (ps : List Parsed)
    (h : ∀ p ∈ ps, p.pvNum = r) (hne : ps ≠ []) :
    ∃ p l1 l2, assocGet (retainFold ps) r = some p ∧ ps = l1 ++ p :: l2 ∧
      (∀ q ∈ l1, q.depth < p.depth) ∧ (∀ q ∈ l2, q.depth ≤ p.depth) := by
  cases ps with
  | nil => exact absurd rfl hne
  | cons c ps =>
    have hget : assocGet (retainFold (c :: ps)) r = some (pickFold c ps) := by
      rw [retainFold, foldl_retainStep_assocGet (c :: ps) [] r h]
      simp only [assocGet, List.foldl_cons, keep1]
      exact foldl_keep1_some ps c
    obtain ⟨l1, l2, heq, h1, h2⟩ := pickFold_decomp ps c
    exact ⟨pickFold c ps, l1, l2, hget, heq, h1, h2⟩

/-- Witness for `retention_leftmost_max` on a concrete tie: both lines
have depth 10, rank 1; the retained line is the first. -/
theorem retention_leftmost_max_wit :
    ∃ p l1 l2,
      assocGet
          (retainFold
            [{ depth := 10, pvNum := 1, moves := "a2a3".data, eval := 0,
               mate := none },
             { depth := 10, pvNum := 1, moves := "b2b3".data, eval := 0,
               mate := none }]) 1 = some p ∧
        [{ depth := 10, pvNum := 1, moves := "a2a3".data, eval := 0,
           mate := none },
         { depth := 10, pvNum := 1, moves := "b2b3".data, eval := 0,
           mate := (none : Option Int) }] = l1 ++ p :: l2 ∧
        (∀ q ∈ l1, q.depth < p.depth) ∧ (∀ q ∈ l2, q.depth ≤ p.depth) :=
  retention_leftmost_max 1 _ (by decide) (by decide)

/-! ## Claim C6 — startup queue population -/

theorem filter_map_id_not_mem {f : Pos → Bool} {l : List Pos} {id : Int}
    (h : id ∉ l.map Pos.id) : id ∉ (l.filter f).map Pos.id := by
  intro hmem
  rcases List.mem_map.mp hmem with ⟨p, hp, rfl⟩
  exact h (List.mem_map.mpr ⟨p, List.mem_filter.mp hp |>.1, rfl⟩)

theorem count_filter_map_of_nodup (l : List Pos) (g : Int → Bool) (pid : Int)
    (hnd : (l.map Pos.id).Nodup) (hid : pid ∈ l.map Pos.id) :
    List.count pid ((l.filter (fun p => g p.id)).map Pos.id) =
      if g pid then 1 else 0 := by
  induction l with
  | nil => simp at hid
  | cons p rest ih =>
    simp only [List.map_cons, List.nodup_cons] at hnd
    rcases List.mem_cons.mp hid with heq | hmem
    · subst heq
      by_cases hk : g p.id
      · rw [if_pos hk, List.filter_cons, if_pos (by simp [hk])]
        simp only [List.map_cons, List.count_cons_self]
        rw [List.count_eq_zero.mpr (filter_map_id_not_mem hnd.1)]
      · rw [if_neg hk, List.filter_cons, if_neg (by simp [hk])]
        exact List.count_eq_zero.mpr (filter_map_id_not_mem hnd.1)
    · have hne : pid ≠ p.id := fun he => hnd.1 (he ▸ hmem)
      rw [List.filter_cons]
      by_cases hk : g p.id
      · rw [if_pos (by simp [hk])]
        simp only [List.map_cons]
        rw [List.count_cons_of_ne hne]
        exact ih hnd.2 hmem
      · rw [if_neg (by simp [hk])]
        exact ih hnd.2 hmem

/-- Claim C6: after startup queue population, for every id of the input
list (ids assumed distinct), the queue contains that id exactly once if
the id is not already a key of the loaded persisted state (under either
its string or raw spelling, the two membership tests the code performs),
and not at all if it is. -/
theorem queue_population_count (positions : List Pos) (results : Store)
    (hnd : (positions.map Pos.id).Nodup) (pid : Int)
    (hid : pid ∈ positions.map Pos.id) :
    List.count pid ((buildQueue positions results).map Prod.fst) =
      if keyPresent results pid then 0 else 1 := by
  have hq : (buildQueue positions results).map Prod.fst =
      (positions.filter (fun p => !(keyPresent results p.id))).map Pos.id := by
    simp [buildQueue, List.map_map, Function.comp]
  rw [hq,
    count_filter_map_of_nodup positions (fun n => !(keyPresent results n)) pid
      hnd hid]
  by_cases hk : keyPresent results pid
  · simp [hk]
  · simp [hk]

/-- Witness for `queue_population_count`: two positions, one of them
(id 1) already in the JSON-loaded state under its string key; id 2 is
enqueued exactly once. -/
theorem queue_population_count_wit :
    List.count 2
        ((buildQueue [⟨1, "f1".data⟩, ⟨2, "f2".data⟩]
            [(PKey.s "1".data, ⟨"f1".data, 0, []⟩)]).map Prod.fst) =
      if keyPresent [(PKey.s "1".data, ⟨"f1".data, 0, []⟩)] 2 then 0 else 1 :=
  queue_population_count [⟨1, "f1".data⟩, ⟨2, "f2".data⟩]
    [(PKey.s "1".data, ⟨"f1".data, 0, []⟩)] (by decide) 2 (by decide)

/-! ## Claim C7 — scoreless lines -/

/-- Claim C7: an output line lacking a score field parses to the
first-class no-result value (`none`), and the read-loop state — the
retained per-rank lines and the tracked maximum depth — is unchanged by
that line. -/
theorem scoreless_line_no_update (line : Chars) (st : RankMap × Int)
    (h1 : occursIn scoreCpPat line = false)
    (h2 : occursIn scoreMatePat line = false) :
    parseInfo line = none ∧ analyzeStep st line = st := by
  have hp : parseInfo line = none := by
    unfold parseInfo
    cases pyIntOpt (extract line "depth".data) with
    | none => rfl
    | some d =>
      cases pyInt (orDefault (extract line "multipv".data) "1".data) with
      | none => rfl
      | some pv => simp [h1, h2]
  refine ⟨hp, ?_⟩
  unfold analyzeStep gateParse
  cases hg : occursIn gatePat1 line && occursIn gatePat2 line with
  | false => simp [hg]
  | true => simp [hg, hp]

/-- Witness for `scoreless_line_no_update`: a well-shaped info line that
simply carries no score token. -/
theorem scoreless_line_no_update_wit :
    parseInfo "info depth 10 multipv 1 pv e2e4".data = none ∧
      analyzeStep ([], 0) "info depth 10 multipv 1 pv e2e4".data = ([], 0) :=
  scoreless_line_no_update "info depth 10 multipv 1 pv e2e4".data ([], 0)
    (by decide) (by decide)

/-! ## Claim C8 — terminal-line emission -/

theorem emitVariants_eq_filterMap (m : RankMap) :
    emitVariants m =
      (List.range' 1 MULTI_PV).filterMap
        (fun i => (assocGet m (Int.ofNat i)).map toVariant) := by
  have hgen : ∀ (l : List Nat) (acc : List Variant),
      l.foldl
          (fun acc i =>
            match assocGet m (Int.ofNat i) with
            | some p => acc ++ [toVariant p]
            | none => acc) acc =
        acc ++ l.filterMap (fun i => (assocGet m (Int.ofNat i)).map toVariant) := by
    intro l
    induction l with
    | nil => intro acc; simp
    | cons x l ih =>
      intro acc
      simp only [List.foldl_cons, List.filterMap_cons]
      cases hf : assocGet m (Int.ofNat x) with
      | none => simpa using ih acc
      | some p => rw [ih (acc ++ [toVariant p]), List.append_assoc]; rfl
  simpa [emitVariants] using hgen (List.range' 1 MULTI_PV) []

/-- Claim C8: the emitted variants list is the per-rank retained lines
read off in rank order `1..K` (`K = MULTI_PV`), ranks never observed
omitted; hence its length is at most `K`, and in particular every
completed job's variants list has length at most `K`. -/
theorem emit_variants_spec :
    (∀ m : RankMap,
        emitVariants m =
          (List.range' 1 MULTI_PV).filterMap
            (fun i => (assocGet m (Int.ofNat i)).map toVariant) ∧
          (emitVariants m).length ≤ MULTI_PV) ∧
      ∀ lines : List Chars, (analyzeRun lines).pvs.length ≤ MULTI_PV := by
  have hlen : ∀ m : RankMap, (emitVariants m).length ≤ MULTI_PV := by
    intro m
    rw [emitVariants_eq_filterMap]
    calc ((List.range' 1 MULTI_PV).filterMap
            (fun i => (assocGet m (Int.ofNat i)).map toVariant)).length ≤
          (List.range' 1 MULTI_PV).length := List.length_filterMap_le _ _
      _ = MULTI_PV := by simp
  exact ⟨fun m => ⟨emitVariants_eq_filterMap m, hlen m⟩, fun lines => hlen _⟩

/-! ## Claim C9 — final reported depth -/

theorem depthFold_ge_init (ps : List Parsed) (d : Int) :
    d ≤ ps.foldl depthStep d := by
  induction ps generalizing d with
  | nil => exact le_refl d
  | cons p ps ih =>
    refine le_trans ?_ (ih (depthStep d p))
    unfold depthStep
    by_cases h : p.depth > d
    · rw [if_pos h]; exact le_of_lt h
    · rw [if_neg h]

theorem depthFold_ge_mem (ps : List Parsed) (d : Int) (p : Parsed)
    (h : p ∈ ps) : p.depth ≤ ps.foldl depthStep d := by
  induction ps generalizing d with
  | nil => cases h
  | cons q ps ih =>
    rcases List.mem_cons.mp h with rfl | h
    · refine le_trans ?_ (depthFold_ge_init ps (depthStep d p))
      unfold depthStep
      by_cases hq : p.depth > d
      · rw [if_pos hq]
      · rw [if_neg hq]; exact le_of_not_lt hq
    · exact ih (depthStep d q) h

theorem depthFold_attained (ps : List Parsed) (d : Int) :
    ps.foldl depthStep d = d ∨ ∃ p ∈ ps, ps.foldl depthStep d = p.depth := by
  induction ps generalizing d with
  | nil => exact Or.inl rfl
  | cons q ps ih =>
    rcases ih (depthStep d q) with h | ⟨p, hp, he⟩
    · by_cases hq : q.depth > d
      · refine Or.inr ⟨q, List.mem_cons_self q ps, ?_⟩
        simpa [List.foldl_cons, depthStep, hq] using h
      · refine Or.inl ?_
        simpa [List.foldl_cons, depthStep, hq] using h
    · exact Or.inr ⟨p, List.mem_cons_of_mem q hp, by simpa [List.foldl_cons] using he⟩

/-- The read loop splits into the retention fold and the depth fold over
the successfully parsed lines, in order. -/
theorem analyze_foldl_eq (lines : List Chars) (m : RankMap) (d : Int) :
    lines.foldl analyzeStep (m, d) =
      ((parsedLines lines).foldl retainStep m,
        (parsedLines lines).foldl depthStep d) := by
  induction lines generalizing m d with
  | nil => rfl
  | cons l lines ih =>
    cases hg : gateParse l with
    | none =>
      simp [List.foldl_cons, analyzeStep, hg, parsedLines,
        List.filterMap_cons, ih]
    | some p =>
      simp [List.foldl_cons, analyzeStep, hg, parsedLines,
        List.filterMap_cons, ih]

theorem analyzeRun_depth_eq (lines : List Chars) :
    (analyzeRun lines).depth = finalDepthFold (parsedLines lines) := by
  simp [analyzeRun, analyze_foldl_eq, finalDepthFold]

/-- Claim C9: a completed job's final reported depth is the maximum depth
across its successfully parsed info lines of all ranks (0 if none
parsed): the run's depth is the depth fold of the parsed lines, the fold
dominates every parsed line's depth, equals 0 on no parsed lines, and is
attained by some parsed line otherwise (depths of parsed lines assumed
nonnegative, as engine depths are). -/
theorem final_depth_spec (ps : List Parsed) (h : ∀ p ∈ ps, 0 ≤ p.depth) :
    (∀ lines, (analyzeRun lines).depth = finalDepthFold (parsedLines lines)) ∧
      (∀ p ∈ ps, p.depth ≤ finalDepthFold ps) ∧
      (ps = [] → finalDepthFold ps = 0) ∧
      (ps ≠ [] → ∃ p ∈ ps, finalDepthFold ps = p.depth) := by
  refine ⟨analyzeRun_depth_eq, fun p hp => depthFold_ge_mem ps 0 p hp,
    fun he => by simp [he, finalDepthFold], fun hne => ?_⟩
  rcases depthFold_attained ps 0 with h0 | hA
  · cases ps with
    | nil => exact absurd rfl hne
    | cons q ps' =>
      have hge : q.depth ≤ finalDepthFold (q :: ps') :=
        depthFold_ge_mem (q :: ps') 0 q (List.mem_cons_self q ps')
      have hle : 0 ≤ q.depth := h q (List.mem_cons_self q ps')
      have hf0 : finalDepthFold (q :: ps') = 0 := h0
      exact ⟨q, List.mem_cons_self q ps',
        by rw [hf0]; exact (le_antisymm (hf0 ▸ hge) hle).symm⟩
  · exact hA

/-- Witness for `final_depth_spec`: one parsed line of depth 12; the
final depth equals 12. -/
theorem final_depth_spec_wit :
    (∀ lines, (analyzeRun lines).depth = finalDepthFold (parsedLines lines)) ∧
      (∀ p ∈ [({ depth := 12, pvNum := 1, moves := "e2e4".data, eval := 0,
                 mate := none } : Parsed)],
          p.depth ≤ finalDepthFold
            [{ depth := 12, pvNum := 1, moves := "e2e4".data, eval := 0,
               mate := none }]) ∧
      (([({ depth := 12, pvNum := 1, moves := "e2e4".data, eval := 0,
            mate := none } : Parsed)] : List Parsed) = [] →
        finalDepthFold
            [{ depth := 12, pvNum := 1, moves := "e2e4".data, eval := 0,
               mate := none }] = 0) ∧
      (([({ depth := 12, pvNum := 1, moves := "e2e4".data, eval := 0,
            mate := none } : Parsed)] : List Parsed) ≠ [] →
        ∃ p ∈ [({ depth := 12, pvNum := 1, moves := "e2e4".data, eval := 0,
                  mate := none } : Parsed)],
          finalDepthFold
              [{ depth := 12, pvNum := 1, moves := "e2e4".data, eval := 0,
                 mate := none }] = p.depth) :=
  final_depth_spec
    [{ depth := 12, pvNum := 1, moves := "e2e4".data, eval := 0,
       mate := none }] (by decide)

/-! ## Claim C10 — jobs with no parsed output are recorded as done -/

theorem assocGet_some_mem {α β : Type} [DecidableEq α]
    (l : List (α × β)) (k : α) (v : β) (h : assocGet l k = some v) :
    (k, v) ∈ l := by
  induction l with
  | nil => simp [assocGet] at h
  | cons kv rest ih =>
    obtain ⟨k', v'⟩ := kv
    by_cases hk : k' = k
    · subst hk
      have h' : v' = v := by simpa [assocGet] using h
      subst h'
      exact List.mem_cons_self _ _
    · simp only [assocGet, if_neg hk] at h
      exact List.mem_cons_of_mem _ (ih h)

theorem keyPresent_roundTrip_record (store : Store) (pid : Int)
    (fen : Chars) (r : AnalysisResult) :
    keyPresent (jsonRoundTrip (workerRecord store pid fen r)) pid = true := by
  have h1 : assocGet (workerRecord store pid fen r) (PKey.i pid) =
      some ⟨fen, r.depth, r.pvs⟩ := assocGet_assocSet_self _ _ _
  have h2 : (PKey.i pid, (⟨fen, r.depth, r.pvs⟩ : StoredResult)) ∈
      workerRecord store pid fen r := assocGet_some_mem _ _ _ h1
  have h3 : (PKey.s (intToChars pid), (⟨fen, r.depth, r.pvs⟩ : StoredResult)) ∈
      jsonRoundTrip (workerRecord store pid fen r) :=
    List.mem_map.mpr ⟨_, h2, rfl⟩
  unfold keyPresent
  rw [Bool.or_eq_true]
  exact Or.inl (List.any_eq_true.mpr ⟨_, h3, by simp⟩)

/-- Claim C10 (implicit): if the terminal line arrives before any output
line parses successfully, `analyze` still returns a completed result with
an empty variants list and depth 0; the worker records it in the results
dict under the job's id; and after the JSON round trip of a checkpoint,
the id is excluded from the queue on every future resume — the job is
treated as done and never retried. -/
theorem unparsed_job_recorded_done (lines : List Chars) (store : Store)
    (pid : Int) (fen : Chars) (positions : List Pos)
    (h : ∀ l ∈ lines, gateParse l = none) :
    analyzeRun lines = ⟨[], 0⟩ ∧
      keyPresent (jsonRoundTrip (workerRecord store pid fen (analyzeRun lines)))
          pid = true ∧
      pid ∉ (buildQueue positions
          (jsonRoundTrip (workerRecord store pid fen (analyzeRun lines)))).map
        Prod.fst := by
  have hpl : parsedLines lines = [] := by
    unfold parsedLines
    exact List.filterMap_eq_nil_iff.mpr h
  have hfold : lines.foldl analyzeStep ([], 0) = ([], 0) := by
    rw [analyze_foldl_eq, hpl]; rfl
  have hrun : analyzeRun lines = ⟨[], 0⟩ := by
    unfold analyzeRun
    rw [hfold]
    rfl
  refine ⟨hrun, keyPresent_roundTrip_record store pid fen _, ?_⟩
  intro hmem
  rcases List.mem_map.mp hmem with ⟨pr, hpr, hfst⟩
  rcases List.mem_map.mp hpr with ⟨p, hp, rfl⟩
  have hpid : p.id = pid := hfst
  have hfilter := List.mem_filter.mp hp
  rw [hpid] at hfilter
  have hkp := keyPresent_roundTrip_record store pid fen (analyzeRun lines)
  simp [hkp] at hfilter

/-- Witness for `unparsed_job_recorded_done`: the session's output
consists of a perfectly well-formed scored info line (which the code
nevertheless fails to parse) and a junk line; position 5 is recorded as
done with no variants and depth 0, and is excluded from a later rebuild
of the queue. -/
theorem unparsed_job_recorded_done_wit :
    analyzeRun [cpLine, "junk".data] = ⟨[], 0⟩ ∧
      keyPresent
          (jsonRoundTrip
            (workerRecord [] 5 "fen5".data (analyzeRun [cpLine, "junk".data])))
          5 = true ∧
      (5 : Int) ∉ (buildQueue [⟨5, "fen5".data⟩, ⟨6, "fen6".data⟩]
          (jsonRoundTrip
            (workerRecord [] 5 "fen5".data
              (analyzeRun [cpLine, "junk".data])))).map Prod.fst :=
  unparsed_job_recorded_done [cpLine, "junk".data] [] 5 "fen5".data
    [⟨5, "fen5".data⟩, ⟨6, "fen6".data⟩] (by decide)

end AnalyzePositions
